import Mathlib

/-!
# Verification of `showcase/theme-showcase.cpp`

A shallow embedding of the numeric utilities (`MathUtils`), the coordinate
pattern extractor (`Circle::matchPattern`) and the shape hierarchy
(`Point`, `Circle`, `Ellipse`, `Rectangle`, `Triangle`, `totalArea`).

Conventions of the embedding:

* `int` is an `Int` wrapped into the signed 32-bit range by `wrap32`,
  `long long` an `Int` wrapped into the signed 64-bit range by `wrap64`;
* integer division is C++ division, truncating toward zero (`Int.tdiv`), and
  fails (`none`) on a zero divisor;
* `double` is read as an exact real number (`ℝ`), `std::pow(x, 2)` as `x ^ 2`.
-/

namespace Showcase

/-! ## Machine integers -/

/-- Two-complement wrap of an integer into the signed 32-bit range of `int`. -/
def wrap32 (z : Int) : Int := (z + 2 ^ 31) % 2 ^ 32 - 2 ^ 31

/-- Two-complement wrap of an integer into the signed 64-bit range of `long long`. -/
def wrap64 (z : Int) : Int := (z + 2 ^ 63) % 2 ^ 64 - 2 ^ 63

/-- The value lies in the signed 32-bit range. -/
def inInt32 (z : Int) : Prop := -(2 ^ 31) ≤ z ∧ z < 2 ^ 31

/-- The value lies in the signed 64-bit range. -/
def inInt64 (z : Int) : Prop := -(2 ^ 63) ≤ z ∧ z < 2 ^ 63

instance (z : Int) : Decidable (inInt32 z) := by unfold inInt32; infer_instance

instance (z : Int) : Decidable (inInt64 z) := by unfold inInt64; infer_instance

/-! ## MathUtils -/

namespace MathUtils

/-- The loop `for (int i = 2; i < n; ++i) fib[i] = fib[i-1] + fib[i-2];` of
`fibonacci`: the first argument counts the iterations still to run, the
second is the loop variable `i`, the third the vector `fib`. The sum is an
`int` sum. -/
def fibLoop : Nat → Nat → List Int → List Int
  | 0, _, fib => fib
  | k + 1, i, fib =>
    fibLoop k (i + 1) (fib.set i (wrap32 (fib.getD (i - 1) 0 + fib.getD (i - 2) 0)))

/-- Embedding of `std::vector<int> fibonacci(int n)`. A negative `n` makes the
vector constructor throw (`none`); otherwise the vector of `n` zeros is
filled in place. The loop runs `n - 2` times when `n > 2` and not at all
otherwise. -/
def fibonacci (n : Int) : Option (List Int) :=
  if n < 0 then none
  else
    let fib := List.replicate n.toNat (0 : Int)
    let fib := if n > 0 then fib.set 0 0 else fib
    let fib := if n > 1 then fib.set 1 1 else fib
    some (fibLoop (n.toNat - 2) 2 fib)

/-- Embedding of `long long factorial(int n)`:
`(n <= 1) ? 1 : n * factorial(n - 1)`, the product taken in `long long`. -/
def factorial (n : Int) : Int :=
  if n ≤ 1 then 1 else wrap64 (n * factorial (n - 1))
termination_by n.toNat
decreasing_by omega

/-- Embedding of `long long binomial(int n, int k)`. The subtraction `n - k`
is an `int` subtraction, the product and the quotient are `long long`
operations; the quotient fails on a zero divisor. -/
def binomial (n k : Int) : Option Int :=
  if k > n then some 0
  else if k = 0 ∨ k = n then some 1
  else
    let d := wrap64 (factorial k * factorial (wrap32 (n - k)))
    if d = 0 then none else some (wrap64 ((factorial n).tdiv d))

end MathUtils

/-! ## Reference definitions taken from the specification -/

/-- The Fibonacci numbers of the specification: `F(0) = 0`, `F(1) = 1`,
`F(i) = F(i-1) + F(i-2)`. -/
def F : Nat → Int
  | 0 => 0
  | 1 => 1
  | i + 2 => F (i + 1) + F i

/-- The binomial coefficient as the specification words it: `0` when `k > n`,
`1` when `k = 0` or `k = n`, and `n! / (k! (n-k)!)` otherwise. -/
def specBinomial (n k : Nat) : Int :=
  if k > n then 0
  else if k = 0 ∨ k = n then 1
  else (n.factorial : Int) / ((k.factorial : Int) * ((n - k).factorial : Int))

/-! ## Coordinate pattern extractor

`Circle::matchPattern` runs `std::sregex_iterator` over the input with the
ECMAScript pattern `([A-Za-z_]\w+)\s*=\s*(\d+(?:\.\d+)?)`. The library
matcher is embedded piece by piece. Every greedy loop of the pattern is
followed by a piece that cannot begin with a character of the loop (`\w+` by
`\s` or `=`, `\s*` by `=` or `\d`, `\d+` by `.` or the end of the pattern),
so giving characters back never turns a failed attempt into a match and each
loop takes the longest run.
-/

/-- The character class `[A-Za-z_]`. -/
def isIdentStart (c : Char) : Bool := c.isAlpha || c == '_'

/-- The character class `\w`, that is `[A-Za-z0-9_]`. -/
def isWordChar (c : Char) : Bool := c.isAlphanum || c == '_'

/-- The character class `\s`: space, tab, line feed, vertical tab, form feed
and carriage return. -/
def isSpaceChar (c : Char) : Bool :=
  c == ' ' || c == Char.ofNat 9 || c == Char.ofNat 10 || c == Char.ofNat 11 ||
    c == Char.ofNat 12 || c == Char.ofNat 13

/-- The character class `\d`, that is `[0-9]`. -/
def isDigitChar (c : Char) : Bool := c.isDigit

/-- A successful match: capture group 1, capture group 2 and the input left
after the match. -/
structure PatternMatch where
  name : List Char
  value : List Char
  rest : List Char
deriving DecidableEq

/-- The piece `(\d+(?:\.\d+)?)` at the head of `s`: the digits, then the
fraction when a `.` and at least one digit follow. Returns the text of the
group and the input left. -/
def matchNumber (s : List Char) : Option (List Char × List Char) :=
  let ds := s.takeWhile isDigitChar
  let r := s.dropWhile isDigitChar
  if ds = [] then none
  else
    match r with
    | [] => some (ds, r)
    | c :: r1 =>
      let fs := r1.takeWhile isDigitChar
      if c = '.' ∧ fs ≠ [] then some (ds ++ c :: fs, r1.dropWhile isDigitChar)
      else some (ds, r)

/-- One attempt of the whole pattern at the head of `s`. -/
def matchAt (s : List Char) : Option PatternMatch :=
  match s with
  | [] => none
  | c :: cs =>
    if isIdentStart c then
      let w := cs.takeWhile isWordChar
      if w = [] then none
      else
        match (cs.dropWhile isWordChar).dropWhile isSpaceChar with
        | [] => none
        | e :: r1 =>
          if e = '=' then
            match matchNumber (r1.dropWhile isSpaceChar) with
            | some (v, rest) => some ⟨c :: w, v, rest⟩
            | none => none
          else none
    else none

/-- The iterator loop: search the leftmost position where the pattern
matches, emit `group 1 + "=" + group 2`, and go on after the match; once the
input is used up no match is left. The first argument bounds the number of
positions tried. -/
def scan : Nat → List Char → List String
  | 0, _ => []
  | _ + 1, [] => []
  | fuel + 1, c :: cs =>
    match matchAt (c :: cs) with
    | some m => (String.mk m.name ++ "=" ++ String.mk m.value) :: scan fuel m.rest
    | none => scan fuel cs

/-! ## Geometry -/

noncomputable section

/-- The constant `PI`. -/
def PI : ℝ := 3.14159265358979323846

/-- The constant `PHI`, the golden ratio. -/
def PHI : ℝ := 1.61803398874989484820

/-- The structure `Point`. -/
structure Point where
  x : ℝ
  y : ℝ

/-- Embedding of `Point::operator+`. -/
def Point.add (p other : Point) : Point := ⟨p.x + other.x, p.y + other.y⟩

/-- Embedding of `Point::operator*`. -/
def Point.mul (p : Point) (scalar : ℝ) : Point := ⟨p.x * scalar, p.y * scalar⟩

/-- Embedding of `Point::distanceTo`. -/
def Point.distanceTo (p other : Point) : ℝ :=
  Real.sqrt ((p.x - other.x) ^ 2 + (p.y - other.y) ^ 2)

/-- Embedding of `Point::magnitude`. -/
def Point.magnitude (p : Point) : ℝ := Real.sqrt (p.x * p.x + p.y * p.y)

/-- The class `Circle`. -/
structure Circle where
  center_ : Point
  radius_ : ℝ

/-- Embedding of `Circle::area`. -/
def Circle.area (c : Circle) : ℝ := PI * c.radius_ ^ 2

/-- Embedding of `Circle::perimeter`. -/
def Circle.perimeter (c : Circle) : ℝ := 2.0 * PI * c.radius_

/-- Embedding of `Circle::centroid`. -/
def Circle.centroid (c : Circle) : Point := c.center_

/-- Embedding of `Circle::arcLength`. -/
def Circle.arcLength (c : Circle) (angleRadians : ℝ) : ℝ := c.radius_ * angleRadians

/-- Embedding of `Circle::sectorArea`. -/
def Circle.sectorArea (c : Circle) (angleRadians : ℝ) : ℝ :=
  0.5 * c.radius_ ^ 2 * angleRadians

end

/-- Embedding of `Circle::matchPattern`. The circle is not read. Every step of `scan`
consumes at least one character, so `input.length + 1` steps reach the end
of the input. -/
def Circle.matchPattern (_c : Circle) (input : String) : List String :=
  scan (input.length + 1) input.toList

noncomputable section

/-- The class `Ellipse`. -/
structure Ellipse where
  center_ : Point
  semiMajorAxis_ : ℝ
  semiMinorAxis_ : ℝ

/-- Embedding of `Ellipse::area`. -/
def Ellipse.area (e : Ellipse) : ℝ := PI * e.semiMajorAxis_ * e.semiMinorAxis_

/-- Embedding of `Ellipse::perimeter`, the Ramanujan approximation. -/
def Ellipse.perimeter (e : Ellipse) : ℝ :=
  let a := e.semiMajorAxis_
  let b := e.semiMinorAxis_
  let h := (a - b) ^ 2 / (a + b) ^ 2
  PI * (a + b) * (1.0 + (3.0 * h) / (10.0 + Real.sqrt (4.0 - 3.0 * h)))

/-- Embedding of `Ellipse::centroid`. -/
def Ellipse.centroid (e : Ellipse) : Point := e.center_

/-- Embedding of `Ellipse::eccentricity`. -/
def Ellipse.eccentricity (e : Ellipse) : ℝ :=
  Real.sqrt (1.0 - (e.semiMinorAxis_ / e.semiMajorAxis_) ^ 2)

/-- Embedding of `Ellipse::focalDistance`. -/
def Ellipse.focalDistance (e : Ellipse) : ℝ := e.semiMajorAxis_ * e.eccentricity

/-- The class `Rectangle`. -/
structure Rectangle where
  bottomLeft_ : Point
  width_ : ℝ
  height_ : ℝ

/-- Embedding of `Rectangle::createGoldenRectangle`. -/
def Rectangle.createGoldenRectangle (bottomLeft : Point) (width : ℝ) : Rectangle :=
  ⟨bottomLeft, width, width / PHI⟩

/-- Embedding of `Rectangle::area`. -/
def Rectangle.area (r : Rectangle) : ℝ := r.width_ * r.height_

/-- Embedding of `Rectangle::perimeter`. -/
def Rectangle.perimeter (r : Rectangle) : ℝ := 2.0 * (r.width_ + r.height_)

/-- Embedding of `Rectangle::centroid`. -/
def Rectangle.centroid (r : Rectangle) : Point :=
  ⟨r.bottomLeft_.x + r.width_ / 2.0, r.bottomLeft_.y + r.height_ / 2.0⟩

/-- Embedding of `Rectangle::diagonal`. -/
def Rectangle.diagonal (r : Rectangle) : ℝ := Real.sqrt (r.width_ ^ 2 + r.height_ ^ 2)

/-- Embedding of `Rectangle::isGoldenRectangle`. -/
def Rectangle.isGoldenRectangle (r : Rectangle) : Bool :=
  let ratio := max r.width_ r.height_ / min r.width_ r.height_
  decide (|ratio - PHI| < 0.01)

/-- The class `Triangle`. -/
structure Triangle where
  a_ : Point
  b_ : Point
  c_ : Point

/-- Embedding of `Triangle::area`, the cross product formula. -/
def Triangle.area (t : Triangle) : ℝ :=
  0.5 * |t.a_.x * (t.b_.y - t.c_.y) + t.b_.x * (t.c_.y - t.a_.y) + t.c_.x * (t.a_.y - t.b_.y)|

/-- Embedding of `Triangle::perimeter`. -/
def Triangle.perimeter (t : Triangle) : ℝ :=
  t.a_.distanceTo t.b_ + t.b_.distanceTo t.c_ + t.c_.distanceTo t.a_

/-- Embedding of `Triangle::centroid`. -/
def Triangle.centroid (t : Triangle) : Point :=
  ⟨(t.a_.x + t.b_.x + t.c_.x) / 3.0, (t.a_.y + t.b_.y + t.c_.y) / 3.0⟩

/-- Embedding of `Triangle::circumradius`. -/
def Triangle.circumradius (t : Triangle) : ℝ :=
  let a := t.b_.distanceTo t.c_
  let b := t.c_.distanceTo t.a_
  let c := t.a_.distanceTo t.b_
  (a * b * c) / (4.0 * t.area)

/-- Embedding of `Triangle::inradius`. -/
def Triangle.inradius (t : Triangle) : ℝ := (2.0 * t.area) / t.perimeter

/-- The default value `0.01` of the parameter `tolerance` of `isRightAngled`. -/
def Triangle.defaultTolerance : ℝ := 0.01

/-- Embedding of `Triangle::isRightAngled`: the three side lengths are sorted ascending
(`std::sort`) and the squares compared. -/
def Triangle.isRightAngled (t : Triangle) (tolerance : ℝ) : Bool :=
  let a := t.b_.distanceTo t.c_
  let b := t.c_.distanceTo t.a_
  let c := t.a_.distanceTo t.b_
  let sides := List.insertionSort (fun u v : ℝ => u ≤ v) [a, b, c]
  decide (|sides.getD 2 0 ^ 2 - (sides.getD 0 0 ^ 2 + sides.getD 1 0 ^ 2)| < tolerance)

/-- The abstract class `Shape` with its four implementors. -/
inductive Shape where
  | circle (c : Circle)
  | ellipse (e : Ellipse)
  | rectangle (r : Rectangle)
  | triangle (t : Triangle)

/-- Virtual dispatch of `area`. -/
def Shape.area : Shape → ℝ
  | .circle c => c.area
  | .ellipse e => e.area
  | .rectangle r => r.area
  | .triangle t => t.area

/-- Virtual dispatch of `perimeter`. -/
def Shape.perimeter : Shape → ℝ
  | .circle c => c.perimeter
  | .ellipse e => e.perimeter
  | .rectangle r => r.perimeter
  | .triangle t => t.perimeter

/-- Virtual dispatch of `centroid`. -/
def Shape.centroid : Shape → Point
  | .circle c => c.centroid
  | .ellipse e => e.centroid
  | .rectangle r => r.centroid
  | .triangle t => t.centroid

/-- The template `totalArea`: `std::accumulate` from `0.0` with the lambda
`sum + shape->area()`. -/
def totalArea (shapes : List Shape) : ℝ :=
  shapes.foldl (fun sum shape => sum + shape.area) 0.0

/-- The parameters of a shape are non-negative lengths: the radius of a
circle, the two semi-axes of an ellipse (not both zero, so that the quotient
in its perimeter is defined), the width and height of a rectangle. A triangle
carries no length parameter. -/
def Shape.nonnegParams : Shape → Prop
  | .circle c => 0 ≤ c.radius_
  | .ellipse e => 0 ≤ e.semiMajorAxis_ ∧ 0 ≤ e.semiMinorAxis_ ∧
      0 < e.semiMajorAxis_ + e.semiMinorAxis_
  | .rectangle r => 0 ≤ r.width_ ∧ 0 ≤ r.height_
  | .triangle _ => True

/-- The triangle has a right angle at one of its vertices: the two edge
vectors that meet there have dot product zero. -/
def Triangle.hasRightAngle (t : Triangle) : Prop :=
  (t.b_.x - t.a_.x) * (t.c_.x - t.a_.x) + (t.b_.y - t.a_.y) * (t.c_.y - t.a_.y) = 0 ∨
  (t.a_.x - t.b_.x) * (t.c_.x - t.b_.x) + (t.a_.y - t.b_.y) * (t.c_.y - t.b_.y) = 0 ∨
  (t.a_.x - t.c_.x) * (t.b_.x - t.c_.x) + (t.a_.y - t.c_.y) * (t.b_.y - t.c_.y) = 0

end

/-! ## Reference predicates for the later statements -/

/-- The three points lie on one line: some line `u x + v y = w`, with `u` and
`v` not both zero, passes through all of them. Coincident points lie on one
line too. -/
def Collinear (a b c : Point) : Prop :=
  ∃ u v w : ℝ, (u ≠ 0 ∨ v ≠ 0) ∧
    u * a.x + v * a.y = w ∧ u * b.x + v * b.y = w ∧ u * c.x + v * c.y = w

/-- An identifier of the pattern: a letter or underscore followed by one or
more word characters, hence at least two characters. -/
def IsName (name : List Char) : Prop :=
  ∃ c w, name = c :: w ∧ isIdentStart c = true ∧ w ≠ [] ∧ ∀ x ∈ w, isWordChar x = true

/-- A number of the pattern: one or more digits, optionally followed by a
single `.` and one or more digits. -/
def IsNumber (value : List Char) : Prop :=
  ∃ ds, ds ≠ [] ∧ (∀ x ∈ ds, isDigitChar x = true) ∧
    (value = ds ∨
      ∃ fs, fs ≠ [] ∧ (∀ x ∈ fs, isDigitChar x = true) ∧ value = ds ++ '.' :: fs)

/-- The text of one match in the input: the name, whitespace, `=`, whitespace
and the value. -/
def IsMatchText (name value txt : List Char) : Prop :=
  ∃ ws1 ws2, (∀ x ∈ ws1, isSpaceChar x = true) ∧ (∀ x ∈ ws2, isSpaceChar x = true) ∧
    txt = name ++ ws1 ++ '=' :: (ws2 ++ value)

/-- The input contains a match of `<identifier> = <number>` somewhere. -/
def ContainsMatch (s : List Char) : Prop :=
  ∃ pre name value txt post, IsName name ∧ IsNumber value ∧ IsMatchText name value txt ∧
    s = pre ++ txt ++ post

/-- The output lists, in order, matches that follow one another in the
input without overlapping: the input is a gap, the text of the first match,
and an input that yields the other elements in the same way. -/
inductive Segmented : List Char → List String → Prop
  | done (gap : List Char) : Segmented gap []
  | step (gap name value txt rest : List Char) (out : List String) :
      IsName name → IsNumber value → IsMatchText name value txt → Segmented rest out →
      Segmented (gap ++ txt ++ rest) ((String.mk name ++ "=" ++ String.mk value) :: out)

/-! ## Machine integers: lemmas -/

theorem wrap64_of_inInt64 {z : Int} (h : inInt64 z) : wrap64 z = z := by
  unfold inInt64 at h
  unfold wrap64
  omega

theorem wrap32_of_inInt32 {z : Int} (h : inInt32 z) : wrap32 z = z := by
  unfold inInt32 at h
  unfold wrap32
  omega

/-! ## MathUtils: lemmas -/

namespace MathUtils

theorem factorial_of_le_one {n : Int} (h : n ≤ 1) : factorial n = 1 := by
  rw [factorial, if_pos h]

theorem factorial_of_one_lt {n : Int} (h : 1 < n) :
    factorial n = wrap64 (n * factorial (n - 1)) := by
  rw [factorial, if_neg (not_le.mpr h)]

theorem factorial_twenty : Nat.factorial 20 = 2432902008176640000 := by
  decide

theorem nat_factorial_lt {m : Nat} (h : m ≤ 20) : (m.factorial : Int) < 2 ^ 63 := by
  have h1 : m.factorial ≤ Nat.factorial 20 := Nat.factorial_le h
  rw [factorial_twenty] at h1
  have h2 : (m.factorial : Int) ≤ 2432902008176640000 := by exact_mod_cast h1
  omega

theorem nat_factorial_inInt64 {m : Nat} (h : m ≤ 20) : inInt64 (m.factorial : Int) := by
  have h1 := nat_factorial_lt h
  have h2 : (0 : Int) ≤ (m.factorial : Int) := Int.natCast_nonneg _
  unfold inInt64
  omega

/-- Up to 20 the recursion computes the mathematical factorial. -/
theorem factorial_natCast : ∀ m : Nat, m ≤ 20 → factorial (m : Int) = (m.factorial : Int)
  | 0, _ => by rw [factorial_of_le_one (by norm_num)]; simp
  | 1, _ => by rw [factorial_of_le_one (by norm_num)]; simp
  | m + 2, h => by
    have ih := factorial_natCast (m + 1) (by omega)
    have hlt : (1 : Int) < ((m + 2 : Nat) : Int) := by push_cast; omega
    rw [factorial_of_one_lt hlt]
    have hsub : ((m + 2 : Nat) : Int) - 1 = ((m + 1 : Nat) : Int) := by push_cast; ring
    rw [hsub, ih]
    have hfac : ((m + 2 : Nat) : Int) * ((m + 1).factorial : Int) = ((m + 2).factorial : Int) := by
      rw [Nat.factorial_succ (m + 1)]; push_cast; ring
    rw [hfac]
    exact wrap64_of_inInt64 (nat_factorial_inInt64 h)

theorem factorial_eq_of_le {n : Int} (h0 : 0 ≤ n) (h20 : n ≤ 20) :
    factorial n = (n.toNat.factorial : Int) := by
  have h := factorial_natCast n.toNat (by omega)
  rwa [Int.toNat_of_nonneg h0] at h

/-- Every product formed by the recursion on an argument up to 20 fits in a
`long long`. -/
theorem factorial_step_inInt64 {m : Int} (h1 : 1 < m) (h20 : m ≤ 20) :
    inInt64 (m * factorial (m - 1)) := by
  obtain ⟨k, rfl⟩ : ∃ k : Nat, m = ((k + 2 : Nat) : Int) := ⟨(m - 2).toNat, by omega⟩
  have hk : k + 2 ≤ 20 := by omega
  have hsub : ((k + 2 : Nat) : Int) - 1 = ((k + 1 : Nat) : Int) := by push_cast; ring
  rw [hsub, factorial_natCast (k + 1) (by omega)]
  have hfac : ((k + 2 : Nat) : Int) * ((k + 1).factorial : Int) = ((k + 2).factorial : Int) := by
    rw [Nat.factorial_succ (k + 1)]; push_cast; ring
  rw [hfac]
  exact nat_factorial_inInt64 hk

end MathUtils

theorem F_eq_fib : ∀ i : Nat, F i = (Nat.fib i : Int)
  | 0 => rfl
  | 1 => rfl
  | i + 2 => by
    rw [F, F_eq_fib (i + 1), F_eq_fib i, Nat.fib_add_two]
    push_cast
    ring

theorem specBinomial_eq_choose (n k : Nat) : specBinomial n k = (Nat.choose n k : Int) := by
  unfold specBinomial
  by_cases h1 : k > n
  · rw [if_pos h1, Nat.choose_eq_zero_of_lt h1]; rfl
  · rw [if_neg h1]
    by_cases h2 : k = 0 ∨ k = n
    · rw [if_pos h2]
      rcases h2 with h2 | h2
      · subst h2; simp
      · subst h2; simp
    · rw [if_neg h2, Nat.choose_eq_factorial_div_factorial (not_lt.mp h1)]
      push_cast
      rfl

namespace MathUtils

set_option maxRecDepth 100000 in
/-- Up to 47 entries the vector holds the Fibonacci numbers. -/
theorem fibonacci_natCast (n : Nat) (h : n ≤ 47) :
    fibonacci (n : Int) = some ((List.range n).map (fun i => (Nat.fib i : Int))) := by
  interval_cases n <;> rfl

set_option maxRecDepth 100000 in
/-- With 48 entries the last sum leaves the range of `int` and wraps. -/
theorem fibonacci_fortyeight :
    (fibonacci 48).map (fun l => l.getD 47 0) = some (-1323752223) := by
  rfl

/-- The three factorials of `binomial` and their product, for `k ≤ n ≤ 20`. -/
theorem binomial_parts {n k : Nat} (hn : n ≤ 20) (hk : k ≤ n) :
    wrap32 ((n : Int) - (k : Int)) = ((n - k : Nat) : Int) ∧
    factorial (k : Int) * factorial ((n - k : Nat) : Int)
      = ((k.factorial * (n - k).factorial : Nat) : Int) ∧
    inInt64 (((k.factorial * (n - k).factorial : Nat) : Int)) ∧
    0 < k.factorial * (n - k).factorial := by
  refine ⟨?_, ?_, ?_, ?_⟩
  · have hsub : (n : Int) - (k : Int) = ((n - k : Nat) : Int) := by omega
    rw [hsub]
    apply wrap32_of_inInt32
    unfold inInt32
    omega
  · rw [factorial_natCast k (by omega), factorial_natCast (n - k) (by omega)]
    push_cast
    rfl
  · have hle : k.factorial * (n - k).factorial ≤ n.factorial :=
      Nat.le_of_dvd (Nat.factorial_pos n) (Nat.factorial_mul_factorial_dvd_factorial hk)
    have hlt := nat_factorial_lt hn
    have hle2 : ((k.factorial * (n - k).factorial : Nat) : Int) ≤ (n.factorial : Int) := by
      exact_mod_cast hle
    have h0 : (0 : Int) ≤ ((k.factorial * (n - k).factorial : Nat) : Int) := Int.natCast_nonneg _
    unfold inInt64
    omega
  · exact Nat.mul_pos (Nat.factorial_pos k) (Nat.factorial_pos (n - k))

theorem choose_inInt64 {n k : Nat} (hn : n ≤ 20) (hk : k ≤ n) :
    inInt64 ((Nat.choose n k : Nat) : Int) := by
  have h1 : Nat.choose n k ≤ n.factorial := by
    rw [Nat.choose_eq_factorial_div_factorial hk]
    exact Nat.div_le_self _ _
  have h2 : ((Nat.choose n k : Nat) : Int) ≤ (n.factorial : Int) := by exact_mod_cast h1
  have h3 := nat_factorial_lt hn
  have h0 : (0 : Int) ≤ ((Nat.choose n k : Nat) : Int) := Int.natCast_nonneg _
  unfold inInt64
  omega

theorem tdiv_factorials {n k : Nat} (hk : k ≤ n) :
    (n.factorial : Int).tdiv ((k.factorial * (n - k).factorial : Nat) : Int)
      = ((Nat.choose n k : Nat) : Int) := by
  rw [← Int.ofNat_tdiv, Nat.choose_eq_factorial_div_factorial hk]

/-- On natural arguments with `n ≤ 20` the code returns the binomial coefficient. -/
theorem binomial_natCast (n k : Nat) (hn : n ≤ 20) :
    binomial (n : Int) (k : Int) = some ((Nat.choose n k : Nat) : Int) := by
  unfold binomial
  by_cases h1 : (k : Int) > (n : Int)
  · rw [if_pos h1, Nat.choose_eq_zero_of_lt (by omega)]
    rfl
  · rw [if_neg h1]
    have hk : k ≤ n := by omega
    by_cases h2 : (k : Int) = 0 ∨ (k : Int) = (n : Int)
    · rw [if_pos h2]
      rcases h2 with h2 | h2
      · have : k = 0 := by omega
        subst this
        simp
      · have : k = n := by omega
        subst this
        simp
    · rw [if_neg h2]
      obtain ⟨p1, p2, p3, p4⟩ := binomial_parts hn hk
      simp only [p1, p2, wrap64_of_inInt64 p3]
      have hne : ¬ (((k.factorial * (n - k).factorial : Nat) : Int) = 0) := by
        have : (0 : Int) < ((k.factorial * (n - k).factorial : Nat) : Int) := by exact_mod_cast p4
        omega
      rw [if_neg hne, factorial_natCast n hn, tdiv_factorials hk,
        wrap64_of_inInt64 (choose_inInt64 hn hk)]

theorem factorial_twentyone : factorial 21 = -4249290049419214848 := by
  rw [factorial_of_one_lt (by norm_num)]
  have h : (21 : Int) - 1 = ((20 : Nat) : Int) := by norm_num
  rw [h, factorial_natCast 20 (by norm_num), factorial_twenty]
  decide

theorem binomial_twentyone_one : binomial 21 1 = some (-1) := by
  unfold binomial
  have h20 : factorial 20 = 2432902008176640000 := by
    have h := factorial_natCast 20 (by norm_num)
    rw [factorial_twenty] at h
    exact_mod_cast h
  have hw : wrap32 (21 - 1) = 20 := by decide
  rw [if_neg (by norm_num), if_neg (by norm_num)]
  simp only [hw, h20, factorial_twentyone, factorial_of_le_one (le_refl (1 : Int))]
  decide

end MathUtils

/-! ## The coordinate pattern extractor: lemmas -/

theorem length_dropWhile_le (p : Char → Bool) (l : List Char) :
    (l.dropWhile p).length ≤ l.length :=
  (List.dropWhile_suffix p).length_le

theorem length_dropWhile_lt (p : Char → Bool) (l : List Char) (h : l.takeWhile p ≠ []) :
    (l.dropWhile p).length < l.length := by
  have h1 : (l.takeWhile p ++ l.dropWhile p).length = l.length := by
    rw [List.takeWhile_append_dropWhile]
  rw [List.length_append] at h1
  have h2 : 0 < (l.takeWhile p).length := List.length_pos.mpr h
  omega

/-- A number match consumes at least one character. -/
theorem matchNumber_rest_length {s v rest : List Char}
    (h : matchNumber s = some (v, rest)) : rest.length < s.length := by
  unfold matchNumber at h
  by_cases hd : s.takeWhile isDigitChar = []
  · simp [hd] at h
  · simp only [hd, if_false] at h
    have hlt := length_dropWhile_lt isDigitChar s hd
    split at h
    · rename_i heq
      simp only [Option.some.injEq, Prod.mk.injEq] at h
      rw [← h.2, heq]
      rw [heq] at hlt
      exact hlt
    · rename_i c r1 heq
      rw [heq] at hlt
      split at h
      · simp only [Option.some.injEq, Prod.mk.injEq] at h
        rw [← h.2]
        have := length_dropWhile_le isDigitChar r1
        simp only [List.length_cons] at hlt
        omega
      · simp only [Option.some.injEq, Prod.mk.injEq] at h
        rw [← h.2, heq]
        exact hlt

/-- A match consumes at least one character. -/
theorem matchAt_rest_length {s : List Char} {m : PatternMatch}
    (h : matchAt s = some m) : m.rest.length < s.length := by
  cases s with
  | nil => simp [matchAt] at h
  | cons c cs =>
    unfold matchAt at h
    by_cases h1 : isIdentStart c = true
    · by_cases h2 : cs.takeWhile isWordChar = []
      · simp [h1, h2] at h
      · simp only [h1, h2, if_true, if_false] at h
        cases heq : (cs.dropWhile isWordChar).dropWhile isSpaceChar with
        | nil => simp [heq] at h
        | cons e r1 =>
          simp only [heq] at h
          by_cases h3 : e = '='
          · simp only [h3, if_true] at h
            cases hnum : matchNumber (r1.dropWhile isSpaceChar) with
            | none => simp [hnum] at h
            | some vr =>
              obtain ⟨v, rest⟩ := vr
              simp only [hnum, Option.some.injEq] at h
              rw [← h]
              have q1 := matchNumber_rest_length hnum
              have q2 := length_dropWhile_le isSpaceChar r1
              have q3 := length_dropWhile_le isSpaceChar (cs.dropWhile isWordChar)
              have q4 := length_dropWhile_le isWordChar cs
              rw [heq] at q3
              simp only [List.length_cons] at q3 ⊢
              omega
          · simp [h3] at h
    · simp [h1] at h

/-- Once the bound exceeds the length of the input, the result of `scan` no
longer depends on it: the loop has reached the end of the input. -/
theorem scan_fuel : ∀ (f1 f2 : Nat) (s : List Char),
    s.length < f1 → s.length < f2 → scan f1 s = scan f2 s
  | 0, _, _, h1, _ => by omega
  | _ + 1, 0, _, _, h2 => by omega
  | _ + 1, _ + 1, [], _, _ => by simp [scan]
  | f1 + 1, f2 + 1, c :: cs, h1, h2 => by
    simp only [List.length_cons] at h1 h2
    cases hm : matchAt (c :: cs) with
    | some m =>
      have hl := matchAt_rest_length hm
      simp only [List.length_cons] at hl
      simp only [scan, hm]
      rw [scan_fuel f1 f2 m.rest (by omega) (by omega)]
    | none =>
      simp only [scan, hm]
      exact scan_fuel f1 f2 cs (by omega) (by omega)

/-! ## Geometry: lemmas -/

theorem PI_pos : 0 < PI := by
  unfold PI
  norm_num

theorem PHI_gt_one : 1 < PHI := by
  unfold PHI
  norm_num

theorem foldl_area (l : List Shape) (acc : ℝ) :
    List.foldl (fun sum shape => sum + Shape.area shape) acc l
      = acc + (l.map Shape.area).sum := by
  induction l generalizing acc with
  | nil => simp
  | cons s l ih =>
    rw [List.foldl_cons, ih, List.map_cons, List.sum_cons]
    ring

theorem distanceTo_nonneg (p q : Point) : 0 ≤ p.distanceTo q :=
  Real.sqrt_nonneg _

theorem distanceTo_sq (p q : Point) :
    p.distanceTo q ^ 2 = (p.x - q.x) ^ 2 + (p.y - q.y) ^ 2 := by
  unfold Point.distanceTo
  exact Real.sq_sqrt (by positivity)

theorem circle_area_nonneg (c : Circle) : 0 ≤ c.area := by
  unfold Circle.area
  exact mul_nonneg PI_pos.le (sq_nonneg _)

theorem triangle_area_nonneg (t : Triangle) : 0 ≤ t.area := by
  unfold Triangle.area
  exact mul_nonneg (by norm_num) (abs_nonneg _)

theorem triangle_perimeter_nonneg (t : Triangle) : 0 ≤ t.perimeter := by
  unfold Triangle.perimeter
  have h1 := distanceTo_nonneg t.a_ t.b_
  have h2 := distanceTo_nonneg t.b_ t.c_
  have h3 := distanceTo_nonneg t.c_ t.a_
  linarith

theorem ellipse_perimeter_nonneg (e : Ellipse)
    (h : 0 ≤ e.semiMajorAxis_ + e.semiMinorAxis_) : 0 ≤ e.perimeter := by
  unfold Ellipse.perimeter
  have hs := Real.sqrt_nonneg
    (4.0 - 3.0 * ((e.semiMajorAxis_ - e.semiMinorAxis_) ^ 2
      / (e.semiMajorAxis_ + e.semiMinorAxis_) ^ 2))
  have hh : 0 ≤ (e.semiMajorAxis_ - e.semiMinorAxis_) ^ 2
      / (e.semiMajorAxis_ + e.semiMinorAxis_) ^ 2 := by positivity
  have hq : 0 ≤ (3.0 * ((e.semiMajorAxis_ - e.semiMinorAxis_) ^ 2
      / (e.semiMajorAxis_ + e.semiMinorAxis_) ^ 2))
      / (10.0 + Real.sqrt (4.0 - 3.0 * ((e.semiMajorAxis_ - e.semiMinorAxis_) ^ 2
      / (e.semiMajorAxis_ + e.semiMinorAxis_) ^ 2))) := by
    apply div_nonneg
    · exact mul_nonneg (by norm_num) hh
    · have : (0 : ℝ) ≤ 10.0 := by norm_num
      linarith
  have h1 : (0 : ℝ) ≤ 1.0 := by norm_num
  exact mul_nonneg (mul_nonneg PI_pos.le h) (by linarith)

/-- With non-negative semi-axes, not both zero, the square root in the
perimeter of an ellipse is taken of a number that is at least `1`. -/
theorem ellipse_sqrt_arg (e : Ellipse) (ha : 0 ≤ e.semiMajorAxis_)
    (hb : 0 ≤ e.semiMinorAxis_) (hab : 0 < e.semiMajorAxis_ + e.semiMinorAxis_) :
    1 ≤ 4.0 - 3.0 * ((e.semiMajorAxis_ - e.semiMinorAxis_) ^ 2
      / (e.semiMajorAxis_ + e.semiMinorAxis_) ^ 2) := by
  have hpos : 0 < (e.semiMajorAxis_ + e.semiMinorAxis_) ^ 2 := by positivity
  have hle : (e.semiMajorAxis_ - e.semiMinorAxis_) ^ 2
      / (e.semiMajorAxis_ + e.semiMinorAxis_) ^ 2 ≤ 1 := by
    rw [div_le_one hpos]
    nlinarith [mul_nonneg ha hb]
  norm_num
  linarith

/-- The result of sorting three numbers: its last entry is at least the other
two, and the squares of its entries add up to the squares of the inputs. -/
theorem sort_three (a b c : ℝ) :
    ∃ s0 s1 s2 : ℝ, List.insertionSort (fun u v : ℝ => u ≤ v) [a, b, c] = [s0, s1, s2] ∧
      a ≤ s2 ∧ b ≤ s2 ∧ c ≤ s2 ∧
      s0 ^ 2 + s1 ^ 2 + s2 ^ 2 = a ^ 2 + b ^ 2 + c ^ 2 := by
  by_cases hbc : b ≤ c
  · by_cases hab : a ≤ b
    · exact ⟨a, b, c, by simp [List.insertionSort, List.orderedInsert, hbc, hab],
        by linarith, hbc, le_refl c, by ring⟩
    · by_cases hac : a ≤ c
      · exact ⟨b, a, c, by simp [List.insertionSort, List.orderedInsert, hbc, hab, hac],
          hac, hbc, le_refl c, by ring⟩
      · exact ⟨b, c, a, by simp [List.insertionSort, List.orderedInsert, hbc, hab, hac],
          le_refl a, by linarith, by linarith, by ring⟩
  · by_cases hac : a ≤ c
    · exact ⟨a, c, b, by simp [List.insertionSort, List.orderedInsert, hbc, hac],
        by linarith, le_refl b, by linarith, by ring⟩
    · by_cases hab : a ≤ b
      · exact ⟨c, a, b, by simp [List.insertionSort, List.orderedInsert, hbc, hab, hac],
          hab, le_refl b, by linarith, by ring⟩
      · exact ⟨c, b, a, by simp [List.insertionSort, List.orderedInsert, hbc, hab, hac],
          le_refl a, by linarith, by linarith, by ring⟩

/-- Three non-negative lengths of which one squares to the sum of the squares
of the other two: after sorting, the last is that one. -/
theorem sorted_sides_pythagoras {a b c : ℝ} (ha : 0 ≤ a) (hb : 0 ≤ b) (hc : 0 ≤ c)
    (h : a ^ 2 = b ^ 2 + c ^ 2 ∨ b ^ 2 = c ^ 2 + a ^ 2 ∨ c ^ 2 = a ^ 2 + b ^ 2) :
    (List.insertionSort (fun u v : ℝ => u ≤ v) [a, b, c]).getD 2 0 ^ 2
      = (List.insertionSort (fun u v : ℝ => u ≤ v) [a, b, c]).getD 0 0 ^ 2
        + (List.insertionSort (fun u v : ℝ => u ≤ v) [a, b, c]).getD 1 0 ^ 2 := by
  obtain ⟨s0, s1, s2, hs, h1, h2, h3, hsum⟩ := sort_three a b c
  rw [hs]
  simp only [List.getD_cons_zero, List.getD_cons_succ]
  have hs2 : 0 ≤ s2 := le_trans ha h1
  have ha2 : a ^ 2 ≤ s2 ^ 2 := pow_le_pow_left₀ ha h1 2
  have hb2 : b ^ 2 ≤ s2 ^ 2 := pow_le_pow_left₀ hb h2 2
  have hc2 : c ^ 2 ≤ s2 ^ 2 := pow_le_pow_left₀ hc h3 2
  have hmax : s2 ^ 2 = a ^ 2 ∨ s2 ^ 2 = b ^ 2 ∨ s2 ^ 2 = c ^ 2 := by
    have hmem : s2 ∈ List.insertionSort (fun u v : ℝ => u ≤ v) [a, b, c] := by
      rw [hs]; simp
    rw [List.mem_insertionSort] at hmem
    simp only [List.mem_cons, List.mem_singleton, List.not_mem_nil, or_false] at hmem
    rcases hmem with r | r | r
    · left; rw [r]
    · right; left; rw [r]
    · right; right; rw [r]
  have qa := sq_nonneg a
  have qb := sq_nonneg b
  have qc := sq_nonneg c
  rcases h with h | h | h <;> rcases hmax with m | m | m <;> linarith

theorem triangle_sides_pythagoras (t : Triangle) (h : t.hasRightAngle) :
    t.b_.distanceTo t.c_ ^ 2 = t.c_.distanceTo t.a_ ^ 2 + t.a_.distanceTo t.b_ ^ 2 ∨
    t.c_.distanceTo t.a_ ^ 2 = t.a_.distanceTo t.b_ ^ 2 + t.b_.distanceTo t.c_ ^ 2 ∨
    t.a_.distanceTo t.b_ ^ 2 = t.b_.distanceTo t.c_ ^ 2 + t.c_.distanceTo t.a_ ^ 2 := by
  simp only [distanceTo_sq]
  rcases h with h | h | h
  · left; linarith
  · right; left; linarith
  · right; right; linarith

namespace MathUtils

/-! ## MathUtils: the claims -/

/-- C2 (as stated, refuted): `fibonacci(48)` does not hold the Fibonacci
numbers. Its entry at index 47 is `-1323752223`, the 32-bit wrap of
`F(47) = 2971215073`, which no `int` can hold. -/
theorem fibonacci_wraps_at_48 :
    (fibonacci 48).map (fun l => l.getD 47 0) = some (-1323752223) ∧
    F 47 = 2971215073 ∧
    ¬ inInt32 (F 47) ∧
    ¬ (∃ l, fibonacci 48 = some l ∧ ∀ i, i < 48 → l[i]? = some (F i)) := by
  have hF : F 47 = 2971215073 := by
    rw [F_eq_fib]
    norm_num
  have hv := fibonacci_fortyeight
  refine ⟨hv, hF, by rw [hF]; decide, ?_⟩
  rintro ⟨l, hl, hall⟩
  have h47 := hall 47 (by norm_num)
  rw [hl] at hv
  simp only [Option.map_some', Option.some.injEq] at hv
  rw [List.getD_eq_getElem?_getD, h47, hF] at hv
  simp at hv

/-- C2 (amended): for every `n` with `0 ≤ n ≤ 47`, `fibonacci(n)` returns a
sequence of exactly `n` integers whose entry at index `i` is the Fibonacci
number `F(i)`; `fibonacci(0)` is empty, `fibonacci(1) = [0]` and
`fibonacci(15) = [0,1,1,2,3,5,8,13,21,34,55,89,144,233,377]`. -/
theorem fibonacci_correct :
    (∀ n : Int, 0 ≤ n → n ≤ 47 →
      ∃ l, fibonacci n = some l ∧ l.length = n.toNat ∧
        ∀ i, i < n.toNat → l[i]? = some (F i)) ∧
    fibonacci 0 = some [] ∧
    fibonacci 1 = some [0] ∧
    fibonacci 15 = some [0, 1, 1, 2, 3, 5, 8, 13, 21, 34, 55, 89, 144, 233, 377] := by
  refine ⟨?_, by rfl, by rfl, by rfl⟩
  intro n h0 h47
  have h := fibonacci_natCast n.toNat (by omega)
  rw [Int.toNat_of_nonneg h0] at h
  refine ⟨_, h, by simp, ?_⟩
  intro i hi
  simp [hi, F_eq_fib]

/-- C2 (amended), at `n = 15`. -/
theorem fibonacci_correct_witness :
    ∃ l, fibonacci 15 = some l ∧ l.length = (15 : Int).toNat ∧
      ∀ i, i < (15 : Int).toNat → l[i]? = some (F i) :=
  fibonacci_correct.1 15 (by norm_num) (by norm_num)

/-- C4: for every `n` with `0 ≤ n ≤ 20`, `factorial(n)` is the mathematical
factorial `n!`, with `factorial(n) = 1` for `n ≤ 1` and
`factorial(n) = n * factorial(n-1)` for `n > 1`, and every product formed on
the way fits in a signed 64-bit integer. -/
theorem factorial_correct (n : Int) (h0 : 0 ≤ n) (h20 : n ≤ 20) :
    factorial n = (n.toNat.factorial : Int) ∧
    (n ≤ 1 → factorial n = 1) ∧
    (1 < n → factorial n = n * factorial (n - 1)) ∧
    (∀ m : Int, 1 < m → m ≤ n → inInt64 (m * factorial (m - 1))) := by
  refine ⟨factorial_eq_of_le h0 h20, factorial_of_le_one, ?_, ?_⟩
  · intro h1
    rw [factorial_of_one_lt h1, wrap64_of_inInt64 (factorial_step_inInt64 h1 h20)]
  · intro m h1 hm
    exact factorial_step_inInt64 h1 (le_trans hm h20)

/-- C4 at `n = 5`: `factorial(5) = 120`. -/
theorem factorial_correct_witness : factorial 5 = 120 := by
  rw [(factorial_correct 5 (by norm_num) (by norm_num)).1]
  decide

/-- C3: for every `n` with `0 ≤ n ≤ 20` and every `k ≥ 0`, `binomial(n, k)`
is the binomial coefficient as the specification defines it, which is the
mathematical `C(n, k)`; when `k ≤ n` the divisor `k! (n-k)!` divides `n!`
exactly, and the subtraction, the three factorials, the product and the
quotient all stay within their machine ranges. -/
theorem binomial_correct (n k : Int) (h0 : 0 ≤ n) (h20 : n ≤ 20) (hk : 0 ≤ k) :
    binomial n k = some (specBinomial n.toNat k.toNat) ∧
    specBinomial n.toNat k.toNat = ((Nat.choose n.toNat k.toNat : Nat) : Int) ∧
    (k ≤ n →
      (factorial k * factorial (n - k)) ∣ factorial n ∧
      inInt32 (n - k) ∧
      factorial n = (n.toNat.factorial : Int) ∧
      factorial k = (k.toNat.factorial : Int) ∧
      factorial (n - k) = ((n - k).toNat.factorial : Int) ∧
      (∀ m : Int, 1 < m → m ≤ n → inInt64 (m * factorial (m - 1))) ∧
      inInt64 (factorial k * factorial (n - k)) ∧
      inInt64 ((factorial n).tdiv (factorial k * factorial (n - k)))) := by
  have hb := binomial_natCast n.toNat k.toNat (by omega)
  rw [Int.toNat_of_nonneg h0, Int.toNat_of_nonneg hk] at hb
  refine ⟨?_, specBinomial_eq_choose _ _, ?_⟩
  · rw [hb, specBinomial_eq_choose]
  · intro hkn
    have hkn2 : k.toNat ≤ n.toNat := by omega
    have hn2 : n.toNat ≤ 20 := by omega
    obtain ⟨-, p2, p3, -⟩ := binomial_parts hn2 hkn2
    have hsub : n - k = ((n.toNat - k.toNat : Nat) : Int) := by omega
    have hfn := factorial_eq_of_le h0 h20
    have hfk := factorial_eq_of_le hk (le_trans hkn h20)
    have hfs := factorial_eq_of_le (n := n - k) (by omega) (by omega)
    have hprod : factorial k * factorial (n - k)
        = ((k.toNat.factorial * (n.toNat - k.toNat).factorial : Nat) : Int) := by
      rw [hsub, ← p2, Int.toNat_of_nonneg hk]
    refine ⟨?_, ?_, hfn, hfk, hfs, ?_, ?_, ?_⟩
    · rw [hprod, hfn]
      exact Int.natCast_dvd_natCast.mpr (Nat.factorial_mul_factorial_dvd_factorial hkn2)
    · unfold inInt32
      omega
    · intro m h1 hm
      exact factorial_step_inInt64 h1 (le_trans hm h20)
    · rw [hprod]
      exact p3
    · rw [hprod, hfn, tdiv_factorials hkn2]
      exact choose_inInt64 hn2 hkn2

/-- C3 at the inputs of the specification: `binomial(5,2) = 10` and
`binomial(2,5) = 0`. -/
theorem binomial_correct_witness : binomial 5 2 = some 10 ∧ binomial 2 5 = some 0 := by
  constructor
  · rw [(binomial_correct 5 2 (by norm_num) (by norm_num) (by norm_num)).1]
    decide
  · rw [(binomial_correct 2 5 (by norm_num) (by norm_num) (by norm_num)).1]
    decide

/-- C5 (as stated, refuted): on the negative input `-1` the call returns the
value `1`. -/
theorem factorial_negative_returns : (-1 : Int) < 0 ∧ factorial (-1) = 1 :=
  ⟨by norm_num, factorial_of_le_one (by norm_num)⟩

/-- C5 (amended): for every negative `n` the guard `n <= 1` of `factorial`
holds at the first call, so `factorial(n)` returns `1` without recursing. -/
theorem factorial_negative (n : Int) (h : n < 0) : n ≤ 1 ∧ factorial n = 1 :=
  ⟨by omega, factorial_of_le_one (by omega)⟩

/-- C5 (amended), at `n = -3`. -/
theorem factorial_negative_witness : (-3 : Int) ≤ 1 ∧ factorial (-3) = 1 :=
  factorial_negative (-3) (by norm_num)

/-- C6: the overflow of `binomial` is there: for `n = 21`, `k = 1` (so
`0 ≤ k ≤ n`) `factorial(21)` wraps to `-4249290049419214848` and
`binomial(21, 1)` returns `-1`, while the binomial coefficient is `21`. -/
theorem binomial_overflow :
    factorial 21 = -4249290049419214848 ∧
    binomial 21 1 = some (-1) ∧
    specBinomial 21 1 = 21 ∧
    ∃ n k : Int, 0 ≤ k ∧ k ≤ n ∧ binomial n k ≠ some (specBinomial n.toNat k.toNat) := by
  have hs : specBinomial 21 1 = 21 := by
    rw [specBinomial_eq_choose]
    norm_num [Nat.choose]
  refine ⟨factorial_twentyone, binomial_twentyone_one, hs, 21, 1, by norm_num, by norm_num, ?_⟩
  have h1 : (21 : Int).toNat = 21 := rfl
  have h2 : (1 : Int).toNat = 1 := rfl
  rw [binomial_twentyone_one, h1, h2, hs]
  decide

end MathUtils

/-! ## Geometry: the claims -/

/-- C7: for every finite ordered collection of shapes, `totalArea(shapes)` is
the sum of `area()` over its elements, accumulated left to right from `0.0`:
the empty collection gives `0.0`, appending a shape adds its area, and a
collection of one shape gives the area of that shape. -/
theorem totalArea_eq_sum :
    (∀ shapes : List Shape, totalArea shapes = (shapes.map Shape.area).sum) ∧
    totalArea [] = 0 ∧
    (∀ (shapes : List Shape) (s : Shape),
      totalArea (shapes ++ [s]) = totalArea shapes + s.area) ∧
    (∀ s : Shape, totalArea [s] = s.area) := by
  have h : ∀ shapes : List Shape, totalArea shapes = (shapes.map Shape.area).sum := by
    intro shapes
    unfold totalArea
    rw [foldl_area]
    norm_num
  refine ⟨h, ?_, ?_, ?_⟩
  · rw [h]; simp
  · intro shapes s
    rw [h, h]; simp
  · intro s
    rw [h]; simp

/-- C8 (as stated, refuted): a circle built with the radius `-1` has a
negative perimeter, and a rectangle built with width `-1` and height `1` has
a negative area. -/
theorem negative_radius_perimeter :
    (Shape.circle ⟨⟨0, 0⟩, -1⟩).perimeter < 0 ∧
    (Shape.rectangle ⟨⟨0, 0⟩, -1, 1⟩).area < 0 := by
  constructor
  · show (2.0 : ℝ) * PI * (-1) < 0
    have := PI_pos
    norm_num
    exact this
  · show (-1 : ℝ) * 1 < 0
    norm_num

/-- C8 (amended): for every shape whose length parameters are non-negative
(the radius of a circle, the semi-axes of an ellipse, not both zero, the width
and height of a rectangle; a triangle has none), `area() ≥ 0` and
`perimeter() ≥ 0`. -/
theorem shape_measures_nonneg (s : Shape) (h : s.nonnegParams) :
    0 ≤ s.area ∧ 0 ≤ s.perimeter := by
  cases s with
  | circle c =>
    have hr : 0 ≤ c.radius_ := h
    refine ⟨circle_area_nonneg c, ?_⟩
    show 0 ≤ (2.0 : ℝ) * PI * c.radius_
    exact mul_nonneg (mul_nonneg (by norm_num) PI_pos.le) hr
  | ellipse e =>
    obtain ⟨ha, hb, hab⟩ : 0 ≤ e.semiMajorAxis_ ∧ 0 ≤ e.semiMinorAxis_ ∧
      0 < e.semiMajorAxis_ + e.semiMinorAxis_ := h
    refine ⟨?_, ellipse_perimeter_nonneg e hab.le⟩
    show 0 ≤ PI * e.semiMajorAxis_ * e.semiMinorAxis_
    exact mul_nonneg (mul_nonneg PI_pos.le ha) hb
  | rectangle r =>
    obtain ⟨hw, hh⟩ : 0 ≤ r.width_ ∧ 0 ≤ r.height_ := h
    constructor
    · show 0 ≤ r.width_ * r.height_
      exact mul_nonneg hw hh
    · show 0 ≤ (2.0 : ℝ) * (r.width_ + r.height_)
      exact mul_nonneg (by norm_num) (add_nonneg hw hh)
  | triangle t => exact ⟨triangle_area_nonneg t, triangle_perimeter_nonneg t⟩

/-- C8 (amended), at the ellipse of the demonstration, `Ellipse((10,10), 50, 30)`. -/
theorem shape_measures_nonneg_witness :
    0 ≤ (Shape.ellipse ⟨⟨10, 10⟩, 50, 30⟩).area ∧
    0 ≤ (Shape.ellipse ⟨⟨10, 10⟩, 50, 30⟩).perimeter :=
  shape_measures_nonneg (Shape.ellipse ⟨⟨10, 10⟩, 50, 30⟩) (by
    show (0 : ℝ) ≤ 50 ∧ (0 : ℝ) ≤ 30 ∧ (0 : ℝ) < 50 + 30
    norm_num)

/-- C9: for every `bottomLeft` and every `width > 0`,
`createGoldenRectangle(bottomLeft, width)` is the rectangle with that corner
and width and with `height = width / PHI`, its side ratio is exactly `PHI`,
and `isGoldenRectangle()` returns true on it. -/
theorem createGoldenRectangle_isGolden (bottomLeft : Point) (width : ℝ) (hw : 0 < width) :
    (Rectangle.createGoldenRectangle bottomLeft width).bottomLeft_ = bottomLeft ∧
    (Rectangle.createGoldenRectangle bottomLeft width).width_ = width ∧
    (Rectangle.createGoldenRectangle bottomLeft width).height_ = width / PHI ∧
    max width (width / PHI) / min width (width / PHI) = PHI ∧
    (Rectangle.createGoldenRectangle bottomLeft width).isGoldenRectangle = true := by
  have hphi : 0 < PHI := lt_trans one_pos PHI_gt_one
  have hle : width / PHI ≤ width := div_le_self hw.le PHI_gt_one.le
  have hratio : max width (width / PHI) / min width (width / PHI) = PHI := by
    rw [max_eq_left hle, min_eq_right hle]
    field_simp
  refine ⟨rfl, rfl, rfl, hratio, ?_⟩
  unfold Rectangle.isGoldenRectangle Rectangle.createGoldenRectangle
  simp only [hratio, sub_self, abs_zero, decide_eq_true_eq]
  norm_num

/-- C9 at `bottomLeft = (0,0)`, `width = 100`: the height is within `1e-6` of
`61.803399` and the rectangle is golden. -/
theorem createGoldenRectangle_isGolden_witness :
    |(Rectangle.createGoldenRectangle ⟨0, 0⟩ 100).height_ - 61.803399| < 0.000001 ∧
    (Rectangle.createGoldenRectangle ⟨0, 0⟩ 100).isGoldenRectangle = true := by
  obtain ⟨-, -, hh, -, hg⟩ := createGoldenRectangle_isGolden ⟨0, 0⟩ 100 (by norm_num)
  refine ⟨?_, hg⟩
  rw [hh, abs_lt]
  unfold PHI
  constructor <;> norm_num

/-- C10: for every triangle with a right angle at one of its vertices and
every `tolerance > 0`, the sorted side lengths `[s0, s1, s2]` satisfy
`s2^2 = s0^2 + s1^2` and `isRightAngled(tolerance)` returns true. -/
theorem isRightAngled_of_hasRightAngle (t : Triangle) (tolerance : ℝ)
    (h : t.hasRightAngle) (htol : 0 < tolerance) :
    (List.insertionSort (fun u v : ℝ => u ≤ v)
        [t.b_.distanceTo t.c_, t.c_.distanceTo t.a_, t.a_.distanceTo t.b_]).getD 2 0 ^ 2
      = (List.insertionSort (fun u v : ℝ => u ≤ v)
        [t.b_.distanceTo t.c_, t.c_.distanceTo t.a_, t.a_.distanceTo t.b_]).getD 0 0 ^ 2
      + (List.insertionSort (fun u v : ℝ => u ≤ v)
        [t.b_.distanceTo t.c_, t.c_.distanceTo t.a_, t.a_.distanceTo t.b_]).getD 1 0 ^ 2 ∧
    t.isRightAngled tolerance = true := by
  have hs := sorted_sides_pythagoras (distanceTo_nonneg t.b_ t.c_)
    (distanceTo_nonneg t.c_ t.a_) (distanceTo_nonneg t.a_ t.b_) (triangle_sides_pythagoras t h)
  refine ⟨hs, ?_⟩
  unfold Triangle.isRightAngled
  simp only [hs, sub_self, abs_zero, decide_eq_true_eq]
  exact htol

/-- C10 at the 3-4-5 triangle `Triangle((0,0),(3,0),(0,4))` with the default
tolerance `0.01`: `isRightAngled()` is true. -/
theorem isRightAngled_of_hasRightAngle_witness :
    (Triangle.mk ⟨0, 0⟩ ⟨3, 0⟩ ⟨0, 4⟩).isRightAngled Triangle.defaultTolerance = true :=
  (isRightAngled_of_hasRightAngle (Triangle.mk ⟨0, 0⟩ ⟨3, 0⟩ ⟨0, 4⟩) Triangle.defaultTolerance
    (by left; norm_num) (by unfold Triangle.defaultTolerance; norm_num)).2

/-! ## The coordinate pattern extractor: the claims -/

/-- C1 (the code at the input of the claim): on `"x=123 y=456 radius=789"`
the extractor returns the one element `"radius=789"`: the one-letter names
`x` and `y` do not match `[A-Za-z_]\w+`, which asks for two characters. -/
theorem matchPattern_demo (c : Circle) :
    matchAt "x=123 y=456 radius=789".toList = none ∧
    matchAt "y=456 radius=789".toList = none ∧
    c.matchPattern "x=123 y=456 radius=789" = ["radius=789"] ∧
    c.matchPattern "x=123 y=456 radius=789" ≠ ["x=123", "y=456", "radius=789"] := by
  have h : c.matchPattern "x=123 y=456 radius=789" = ["radius=789"] := rfl
  refine ⟨by rfl, by rfl, h, ?_⟩
  rw [h]
  decide

/-! ## Geometry: further lemmas -/

/-- The signed double area of the triangle, as `Triangle::area` writes it. -/
theorem collinear_iff_cross (a b c : Point) :
    Collinear a b c ↔ a.x * (b.y - c.y) + b.x * (c.y - a.y) + c.x * (a.y - b.y) = 0 := by
  constructor
  · rintro ⟨u, v, w, huv, ha, hb, hc⟩
    have h1 : u * (b.x - a.x) + v * (b.y - a.y) = 0 := by linarith
    have h2 : u * (c.x - a.x) + v * (c.y - a.y) = 0 := by linarith
    have hu : u * (a.x * (b.y - c.y) + b.x * (c.y - a.y) + c.x * (a.y - b.y)) = 0 := by
      linear_combination (c.y - a.y) * h1 - (b.y - a.y) * h2
    have hv : v * (a.x * (b.y - c.y) + b.x * (c.y - a.y) + c.x * (a.y - b.y)) = 0 := by
      linear_combination (b.x - a.x) * h2 - (c.x - a.x) * h1
    rcases huv with h | h
    · exact (mul_eq_zero.mp hu).resolve_left h
    · exact (mul_eq_zero.mp hv).resolve_left h
  · intro h
    by_cases hb : b.x - a.x = 0 ∧ b.y - a.y = 0
    · by_cases hc : c.x - a.x = 0 ∧ c.y - a.y = 0
      · refine ⟨1, 0, a.x, Or.inl one_ne_zero, by ring, ?_, ?_⟩
        · linarith [hb.1]
        · linarith [hc.1]
      · refine ⟨-(c.y - a.y), c.x - a.x, -(c.y - a.y) * a.x + (c.x - a.x) * a.y, ?_,
          rfl, ?_, ?_⟩
        · by_contra hcon
          push_neg at hcon
          exact hc ⟨hcon.2, by linarith [hcon.1]⟩
        · have e1 : b.x = a.x := by linarith [hb.1]
          have e2 : b.y = a.y := by linarith [hb.2]
          rw [e1, e2]
        · ring
    · refine ⟨-(b.y - a.y), b.x - a.x, -(b.y - a.y) * a.x + (b.x - a.x) * a.y, ?_,
        rfl, ?_, ?_⟩
      · by_contra hcon
        push_neg at hcon
        exact hb ⟨hcon.2, by linarith [hcon.1]⟩
      · ring
      · linear_combination h

theorem distanceTo_comm (p q : Point) : p.distanceTo q = q.distanceTo p := by
  unfold Point.distanceTo
  congr 1
  ring

theorem distanceTo_pos {p q : Point} (h : p.x ≠ q.x ∨ p.y ≠ q.y) : 0 < p.distanceTo q := by
  unfold Point.distanceTo
  apply Real.sqrt_pos.mpr
  rcases h with h | h
  · have : 0 < (p.x - q.x) ^ 2 := by
      have : p.x - q.x ≠ 0 := sub_ne_zero.mpr h
      positivity
    nlinarith [sq_nonneg (p.y - q.y)]
  · have : 0 < (p.y - q.y) ^ 2 := by
      have : p.y - q.y ≠ 0 := sub_ne_zero.mpr h
      positivity
    nlinarith [sq_nonneg (p.x - q.x)]

/-! ## Geometry: the claims, continued -/

/-- C11: for every three collinear points `a`, `b`, `c`, coincident ones
included, `Triangle(a, b, c).area()` is exactly `0`, an ordinary value of the
total function `area`. -/
theorem area_of_collinear (a b c : Point) (h : Collinear a b c) :
    (Triangle.mk a b c).area = 0 := by
  have hc := (collinear_iff_cross a b c).mp h
  show 0.5 * |a.x * (b.y - c.y) + b.x * (c.y - a.y) + c.x * (a.y - b.y)| = 0
  rw [hc, abs_zero, mul_zero]

/-- C11 at three distinct points of the line `y = x` and at three coincident
points. -/
theorem area_of_collinear_witness :
    (Triangle.mk ⟨0, 0⟩ ⟨1, 1⟩ ⟨2, 2⟩).area = 0 ∧ (Triangle.mk ⟨3, 4⟩ ⟨3, 4⟩ ⟨3, 4⟩).area = 0 :=
  ⟨area_of_collinear ⟨0, 0⟩ ⟨1, 1⟩ ⟨2, 2⟩
      ⟨1, -1, 0, Or.inl one_ne_zero, by norm_num, by norm_num, by norm_num⟩,
    area_of_collinear ⟨3, 4⟩ ⟨3, 4⟩ ⟨3, 4⟩
      ⟨1, 0, 3, Or.inl one_ne_zero, by norm_num, by norm_num, by norm_num⟩⟩

/-- C12: for every center and radius `r`, `Circle(center, r)` has
`area() = PI * r^2`, `perimeter() = 2 * PI * r` and `centroid() = center`,
with `PI = 3.14159265358979323846`; for `Circle((5,5), 10)` the area is within
`1e-6` of `314.159265` and the perimeter within `1e-5` of `62.83185`. -/
theorem circle_measures :
    (∀ (center : Point) (r : ℝ),
      (Circle.mk center r).area = PI * r ^ 2 ∧
      (Circle.mk center r).perimeter = 2 * PI * r ∧
      (Circle.mk center r).centroid = center) ∧
    PI = 3.14159265358979323846 ∧
    |(Circle.mk ⟨5, 5⟩ 10).area - 314.159265| < 0.000001 ∧
    |(Circle.mk ⟨5, 5⟩ 10).perimeter - 62.83185| < 0.00001 := by
  refine ⟨?_, rfl, ?_, ?_⟩
  · intro center r
    refine ⟨rfl, ?_, rfl⟩
    show 2.0 * PI * r = 2 * PI * r
    norm_num
  · show |PI * (10 : ℝ) ^ 2 - 314.159265| < 0.000001
    rw [abs_lt]
    unfold PI
    constructor <;> norm_num
  · show |2.0 * PI * (10 : ℝ) - 62.83185| < 0.00001
    rw [abs_lt]
    unfold PI
    constructor <;> norm_num

/-- C13: for every ellipse with semi-axes `a ≥ b > 0`, the argument of the
square root in `eccentricity()` is non-negative, `eccentricity()` is
`sqrt(1 - (b/a)^2)` and lies in `[0, 1)`, and
`focalDistance() = a * eccentricity()`. -/
theorem eccentricity_range (e : Ellipse) (hab : e.semiMinorAxis_ ≤ e.semiMajorAxis_)
    (hb : 0 < e.semiMinorAxis_) :
    0 ≤ 1 - (e.semiMinorAxis_ / e.semiMajorAxis_) ^ 2 ∧
    e.eccentricity = Real.sqrt (1 - (e.semiMinorAxis_ / e.semiMajorAxis_) ^ 2) ∧
    0 ≤ e.eccentricity ∧ e.eccentricity < 1 ∧
    e.focalDistance = e.semiMajorAxis_ * e.eccentricity := by
  have ha : 0 < e.semiMajorAxis_ := lt_of_lt_of_le hb hab
  have hq0 : 0 < e.semiMinorAxis_ / e.semiMajorAxis_ := div_pos hb ha
  have hq1 : e.semiMinorAxis_ / e.semiMajorAxis_ ≤ 1 := (div_le_one ha).mpr hab
  have hsq0 : 0 < (e.semiMinorAxis_ / e.semiMajorAxis_) ^ 2 := by positivity
  have hsq1 : (e.semiMinorAxis_ / e.semiMajorAxis_) ^ 2 ≤ 1 := by
    nlinarith
  have hecc : e.eccentricity
      = Real.sqrt (1 - (e.semiMinorAxis_ / e.semiMajorAxis_) ^ 2) := by
    unfold Ellipse.eccentricity
    norm_num
  refine ⟨by linarith, hecc, ?_, ?_, rfl⟩
  · rw [hecc]
    exact Real.sqrt_nonneg _
  · rw [hecc]
    calc Real.sqrt (1 - (e.semiMinorAxis_ / e.semiMajorAxis_) ^ 2)
        < Real.sqrt 1 := Real.sqrt_lt_sqrt (by linarith) (by linarith)
      _ = 1 := Real.sqrt_one

/-- C13 at the ellipse of the demonstration, `Ellipse((10,10), 50, 30)`. -/
theorem eccentricity_range_witness :
    0 ≤ (Ellipse.mk ⟨10, 10⟩ 50 30).eccentricity ∧
    (Ellipse.mk ⟨10, 10⟩ 50 30).eccentricity < 1 := by
  obtain ⟨-, -, h0, h1, -⟩ := eccentricity_range (Ellipse.mk ⟨10, 10⟩ 50 30)
    (by show (30 : ℝ) ≤ 50; norm_num) (by show (0 : ℝ) < 30; norm_num)
  exact ⟨h0, h1⟩

/-- C16: for every triangle whose vertices are not collinear, the divisor
`4 * area()` of `circumradius()` and the divisor `perimeter()` of `inradius()`
are strictly positive; and the divisor of `circumradius()` is `0` exactly when
the vertices are collinear. -/
theorem triangle_divisors (t : Triangle) :
    t.circumradius
      = (t.b_.distanceTo t.c_ * t.c_.distanceTo t.a_ * t.a_.distanceTo t.b_)
        / (4.0 * t.area) ∧
    t.inradius = (2.0 * t.area) / t.perimeter ∧
    (¬ Collinear t.a_ t.b_ t.c_ → 0 < 4.0 * t.area ∧ 0 < t.perimeter) ∧
    (4.0 * t.area = 0 ↔ Collinear t.a_ t.b_ t.c_) := by
  have harea : 4.0 * t.area = 0 ↔ Collinear t.a_ t.b_ t.c_ := by
    rw [collinear_iff_cross]
    unfold Triangle.area
    constructor
    · intro h
      have h4 : (4.0 : ℝ) ≠ 0 := by norm_num
      have h5 : (0.5 : ℝ) ≠ 0 := by norm_num
      have h1 := (mul_eq_zero.mp h).resolve_left h4
      have h2 := (mul_eq_zero.mp h1).resolve_left h5
      exact abs_eq_zero.mp h2
    · intro h
      rw [h, abs_zero, mul_zero, mul_zero]
  refine ⟨rfl, rfl, ?_, harea⟩
  intro hn
  constructor
  · have hne : 4.0 * t.area ≠ 0 := fun h => hn (harea.mp h)
    have hge : 0 ≤ 4.0 * t.area := mul_nonneg (by norm_num) (triangle_area_nonneg t)
    exact lt_of_le_of_ne hge (Ne.symm hne)
  · have hab : t.a_.x ≠ t.b_.x ∨ t.a_.y ≠ t.b_.y := by
      by_contra hcon
      push_neg at hcon
      apply hn
      rw [collinear_iff_cross, hcon.1, hcon.2]
      ring
    have h1 := distanceTo_pos hab
    have h2 := distanceTo_nonneg t.b_ t.c_
    have h3 := distanceTo_nonneg t.c_ t.a_
    unfold Triangle.perimeter
    linarith

/-- C16 at the 3-4-5 triangle `Triangle((0,0),(3,0),(0,4))`, whose vertices
are not collinear. -/
theorem triangle_divisors_witness :
    0 < 4.0 * (Triangle.mk ⟨0, 0⟩ ⟨3, 0⟩ ⟨0, 4⟩).area ∧
    0 < (Triangle.mk ⟨0, 0⟩ ⟨3, 0⟩ ⟨0, 4⟩).perimeter :=
  (triangle_divisors (Triangle.mk ⟨0, 0⟩ ⟨3, 0⟩ ⟨0, 4⟩)).2.2.1 (by
    rw [collinear_iff_cross]
    norm_num)

/-- C17: for every center and every `r > 0`, the ellipse with both semi-axes
`r` agrees with the circle of radius `r` at the same center: the areas are
equal, the term `h` of the perimeter is `0` and the perimeters are equal, and
the eccentricity is `0`. -/
theorem ellipse_equal_axes (center : Point) (r : ℝ) (hr : 0 < r) :
    (Ellipse.mk center r r).area = (Circle.mk center r).area ∧
    (r - r) ^ 2 / (r + r) ^ 2 = 0 ∧
    (Ellipse.mk center r r).perimeter = (Circle.mk center r).perimeter ∧
    (Ellipse.mk center r r).eccentricity = 0 := by
  refine ⟨?_, by simp, ?_, ?_⟩
  · show PI * r * r = PI * r ^ 2
    ring
  · show PI * (r + r) * (1.0 + (3.0 * ((r - r) ^ 2 / (r + r) ^ 2))
        / (10.0 + Real.sqrt (4.0 - 3.0 * ((r - r) ^ 2 / (r + r) ^ 2)))) = 2.0 * PI * r
    simp only [sub_self, ne_eq, OfNat.ofNat_ne_zero, not_false_eq_true, zero_pow, zero_div,
      mul_zero, add_zero]
    norm_num
    ring
  · show Real.sqrt (1.0 - (r / r) ^ 2) = 0
    rw [div_self hr.ne.symm]
    norm_num

/-- C17 at the radius `42` of the demonstration. -/
theorem ellipse_equal_axes_witness :
    (Ellipse.mk ⟨0, 0⟩ 42 42).area = (Circle.mk ⟨0, 0⟩ 42).area ∧
    (Ellipse.mk ⟨0, 0⟩ 42 42).perimeter = (Circle.mk ⟨0, 0⟩ 42).perimeter ∧
    (Ellipse.mk ⟨0, 0⟩ 42 42).eccentricity = 0 := by
  obtain ⟨h1, -, h2, h3⟩ := ellipse_equal_axes ⟨0, 0⟩ 42 (by norm_num)
  exact ⟨h1, h2, h3⟩

/-- C20: for every circle of radius `r`, a full turn gives the whole circle,
`sectorArea(2*PI) = area()` and `arcLength(2*PI) = perimeter()`, and for every
real angle `t`, `sectorArea(t) = 0.5 * r * arcLength(t)`. -/
theorem circle_full_turn (c : Circle) :
    c.sectorArea (2 * PI) = c.area ∧
    c.arcLength (2 * PI) = c.perimeter ∧
    ∀ t : ℝ, c.sectorArea t = 0.5 * c.radius_ * c.arcLength t := by
  refine ⟨?_, ?_, ?_⟩
  · show 0.5 * c.radius_ ^ 2 * (2 * PI) = PI * c.radius_ ^ 2
    norm_num
    ring
  · show c.radius_ * (2 * PI) = 2.0 * PI * c.radius_
    norm_num
    ring
  · intro t
    show 0.5 * c.radius_ ^ 2 * t = 0.5 * c.radius_ * (c.radius_ * t)
    ring

/-- Sorting two lists of reals that are permutations of one another gives the
same list. -/
theorem insertionSort_eq_of_perm (l1 l2 : List ℝ) (h : l1.Perm l2) :
    List.insertionSort (fun u v : ℝ => u ≤ v) l1
      = List.insertionSort (fun u v : ℝ => u ≤ v) l2 := by
  apply List.eq_of_perm_of_sorted (r := fun u v : ℝ => u ≤ v)
  · exact ((List.perm_insertionSort _ l1).trans h).trans (List.perm_insertionSort _ l2).symm
  · exact List.sorted_insertionSort _ l1
  · exact List.sorted_insertionSort _ l2

/-- Exchanging the first two vertices changes none of the four results. -/
theorem triangle_swap (a b c : Point) (tolerance : ℝ) :
    (Triangle.mk b a c).area = (Triangle.mk a b c).area ∧
    (Triangle.mk b a c).perimeter = (Triangle.mk a b c).perimeter ∧
    (Triangle.mk b a c).centroid = (Triangle.mk a b c).centroid ∧
    (Triangle.mk b a c).isRightAngled tolerance
      = (Triangle.mk a b c).isRightAngled tolerance := by
  refine ⟨?_, ?_, ?_, ?_⟩
  · show 0.5 * |b.x * (a.y - c.y) + a.x * (c.y - b.y) + c.x * (b.y - a.y)|
      = 0.5 * |a.x * (b.y - c.y) + b.x * (c.y - a.y) + c.x * (a.y - b.y)|
    rw [← abs_neg (a.x * (b.y - c.y) + b.x * (c.y - a.y) + c.x * (a.y - b.y))]
    congr 2
    ring
  · show b.distanceTo a + a.distanceTo c + c.distanceTo b
      = a.distanceTo b + b.distanceTo c + c.distanceTo a
    rw [distanceTo_comm b a, distanceTo_comm a c, distanceTo_comm c b]
    ring
  · show Point.mk ((b.x + a.x + c.x) / 3.0) ((b.y + a.y + c.y) / 3.0)
      = Point.mk ((a.x + b.x + c.x) / 3.0) ((a.y + b.y + c.y) / 3.0)
    rw [add_comm b.x a.x, add_comm b.y a.y]
  · unfold Triangle.isRightAngled
    simp only
    rw [insertionSort_eq_of_perm [a.distanceTo c, c.distanceTo b, b.distanceTo a]
      [b.distanceTo c, c.distanceTo a, a.distanceTo b]]
    rw [distanceTo_comm a c, distanceTo_comm c b, distanceTo_comm b a]
    exact List.Perm.swap _ _ _

/-- Rotating the vertices changes none of the four results. -/
theorem triangle_rotate (a b c : Point) (tolerance : ℝ) :
    (Triangle.mk b c a).area = (Triangle.mk a b c).area ∧
    (Triangle.mk b c a).perimeter = (Triangle.mk a b c).perimeter ∧
    (Triangle.mk b c a).centroid = (Triangle.mk a b c).centroid ∧
    (Triangle.mk b c a).isRightAngled tolerance
      = (Triangle.mk a b c).isRightAngled tolerance := by
  refine ⟨?_, ?_, ?_, ?_⟩
  · show 0.5 * |b.x * (c.y - a.y) + c.x * (a.y - b.y) + a.x * (b.y - c.y)|
      = 0.5 * |a.x * (b.y - c.y) + b.x * (c.y - a.y) + c.x * (a.y - b.y)|
    congr 2
    ring
  · show b.distanceTo c + c.distanceTo a + a.distanceTo b
      = a.distanceTo b + b.distanceTo c + c.distanceTo a
    ring
  · show Point.mk ((b.x + c.x + a.x) / 3.0) ((b.y + c.y + a.y) / 3.0)
      = Point.mk ((a.x + b.x + c.x) / 3.0) ((a.y + b.y + c.y) / 3.0)
    congr 1 <;> ring
  · unfold Triangle.isRightAngled
    simp only
    rw [insertionSort_eq_of_perm [c.distanceTo a, a.distanceTo b, b.distanceTo c]
      [b.distanceTo c, c.distanceTo a, a.distanceTo b]]
    exact @List.perm_append_comm _ [c.distanceTo a, a.distanceTo b] [b.distanceTo c]

/-- A rearrangement of three points is one of the six orders. -/
theorem perm_three {p q r a b c : Point} (h : [p, q, r].Perm [a, b, c]) :
    (p = a ∧ q = b ∧ r = c) ∨ (p = a ∧ q = c ∧ r = b) ∨ (p = b ∧ q = a ∧ r = c) ∨
    (p = b ∧ q = c ∧ r = a) ∨ (p = c ∧ q = a ∧ r = b) ∨ (p = c ∧ q = b ∧ r = a) := by
  have pair : ∀ {q r x y : Point}, [q, r].Perm [x, y] →
      (q = x ∧ r = y) ∨ (q = y ∧ r = x) := by
    intro q r x y hp
    have hq : q ∈ [x, y] := hp.subset (List.mem_cons_self _ _)
    simp only [List.mem_cons, List.mem_singleton, List.not_mem_nil, or_false] at hq
    rcases hq with rfl | rfl
    · left
      have := List.Perm.cons_inv hp
      exact ⟨rfl, (List.singleton_perm_singleton.mp this)⟩
    · right
      have h2 : [q, r].Perm [q, x] := hp.trans (List.Perm.swap _ _ _)
      have := List.Perm.cons_inv h2
      exact ⟨rfl, (List.singleton_perm_singleton.mp this)⟩
  have hp : p ∈ [a, b, c] := h.subset (List.mem_cons_self _ _)
  simp only [List.mem_cons, List.mem_singleton, List.not_mem_nil, or_false] at hp
  rcases hp with rfl | rfl | rfl
  · rcases pair (List.Perm.cons_inv h) with ⟨h1, h2⟩ | ⟨h1, h2⟩
    · exact Or.inl ⟨rfl, h1, h2⟩
    · exact Or.inr (Or.inl ⟨rfl, h1, h2⟩)
  · have h2 : [p, q, r].Perm [p, a, c] := h.trans (List.Perm.swap _ _ _)
    rcases pair (List.Perm.cons_inv h2) with ⟨h1, h2⟩ | ⟨h1, h2⟩
    · exact Or.inr (Or.inr (Or.inl ⟨rfl, h1, h2⟩))
    · exact Or.inr (Or.inr (Or.inr (Or.inl ⟨rfl, h1, h2⟩)))
  · have h2 : [p, q, r].Perm [p, a, b] :=
      h.trans (@List.perm_append_comm _ [a, b] [p])
    rcases pair (List.Perm.cons_inv h2) with ⟨h1, h2⟩ | ⟨h1, h2⟩
    · exact Or.inr (Or.inr (Or.inr (Or.inr (Or.inl ⟨rfl, h1, h2⟩))))
    · exact Or.inr (Or.inr (Or.inr (Or.inr (Or.inr ⟨rfl, h1, h2⟩))))

/-- C18: for every three points `a`, `b`, `c`, every tolerance and every
rearrangement `(p, q, r)` of `(a, b, c)`, `Triangle(p, q, r)` gives the same
`area()`, `perimeter()`, `centroid()` and `isRightAngled(tolerance)` as
`Triangle(a, b, c)`. -/
theorem triangle_vertex_order (a b c p q r : Point) (tolerance : ℝ)
    (h : [p, q, r].Perm [a, b, c]) :
    (Triangle.mk p q r).area = (Triangle.mk a b c).area ∧
    (Triangle.mk p q r).perimeter = (Triangle.mk a b c).perimeter ∧
    (Triangle.mk p q r).centroid = (Triangle.mk a b c).centroid ∧
    (Triangle.mk p q r).isRightAngled tolerance
      = (Triangle.mk a b c).isRightAngled tolerance := by
  have tr : ∀ {s t u : Triangle},
      (s.area = t.area ∧ s.perimeter = t.perimeter ∧ s.centroid = t.centroid ∧
        s.isRightAngled tolerance = t.isRightAngled tolerance) →
      (t.area = u.area ∧ t.perimeter = u.perimeter ∧ t.centroid = u.centroid ∧
        t.isRightAngled tolerance = u.isRightAngled tolerance) →
      (s.area = u.area ∧ s.perimeter = u.perimeter ∧ s.centroid = u.centroid ∧
        s.isRightAngled tolerance = u.isRightAngled tolerance) := by
    rintro s t u ⟨h1, h2, h3, h4⟩ ⟨g1, g2, g3, g4⟩
    exact ⟨h1.trans g1, h2.trans g2, h3.trans g3, h4.trans g4⟩
  rcases perm_three h with hc | hc | hc | hc | hc | hc <;>
    obtain ⟨e1, e2, e3⟩ := hc <;> subst e1 e2 e3
  · exact ⟨rfl, rfl, rfl, rfl⟩
  · exact tr (triangle_rotate r p q tolerance) (triangle_swap p r q tolerance)
  · exact triangle_swap q p r tolerance
  · exact triangle_rotate r p q tolerance
  · exact tr (triangle_rotate r p q tolerance) (triangle_rotate q r p tolerance)
  · exact tr (triangle_swap q p r tolerance) (triangle_rotate r q p tolerance)

/-- C18 at the 3-4-5 triangle, its vertices given in reverse order. -/
theorem triangle_vertex_order_witness :
    (Triangle.mk ⟨0, 4⟩ ⟨3, 0⟩ ⟨0, 0⟩).area = (Triangle.mk ⟨0, 0⟩ ⟨3, 0⟩ ⟨0, 4⟩).area ∧
    (Triangle.mk ⟨0, 4⟩ ⟨3, 0⟩ ⟨0, 0⟩).perimeter
      = (Triangle.mk ⟨0, 0⟩ ⟨3, 0⟩ ⟨0, 4⟩).perimeter ∧
    (Triangle.mk ⟨0, 4⟩ ⟨3, 0⟩ ⟨0, 0⟩).centroid
      = (Triangle.mk ⟨0, 0⟩ ⟨3, 0⟩ ⟨0, 4⟩).centroid ∧
    (Triangle.mk ⟨0, 4⟩ ⟨3, 0⟩ ⟨0, 0⟩).isRightAngled Triangle.defaultTolerance
      = (Triangle.mk ⟨0, 0⟩ ⟨3, 0⟩ ⟨0, 4⟩).isRightAngled Triangle.defaultTolerance :=
  triangle_vertex_order ⟨0, 0⟩ ⟨3, 0⟩ ⟨0, 4⟩ ⟨0, 4⟩ ⟨3, 0⟩ ⟨0, 0⟩ Triangle.defaultTolerance
    ((List.reverse_perm [(⟨0, 0⟩ : Point), ⟨3, 0⟩, ⟨0, 4⟩]))

/-! ## The coordinate pattern extractor: further lemmas -/

theorem space_cases {x : Char} (h : isSpaceChar x = true) :
    x = ' ' ∨ x = Char.ofNat 9 ∨ x = Char.ofNat 10 ∨ x = Char.ofNat 11 ∨
      x = Char.ofNat 12 ∨ x = Char.ofNat 13 := by
  unfold isSpaceChar at h
  simp only [Bool.or_eq_true, beq_iff_eq] at h
  tauto

theorem word_not_space {x : Char} (h : isWordChar x = true) : isSpaceChar x = false := by
  cases hs : isSpaceChar x with
  | false => rfl
  | true =>
    rcases space_cases hs with rfl | rfl | rfl | rfl | rfl | rfl <;>
      exact absurd h (by decide)

theorem identStart_word {x : Char} (h : isIdentStart x = true) : isWordChar x = true := by
  unfold isIdentStart at h
  unfold isWordChar Char.isAlphanum
  simp only [Bool.or_eq_true] at h ⊢
  tauto

theorem digit_word {x : Char} (h : isDigitChar x = true) : isWordChar x = true := by
  unfold isDigitChar at h
  unfold isWordChar Char.isAlphanum
  simp only [Bool.or_eq_true]
  tauto

/-- A match of the number piece is a number of the pattern, taken from the
head of the input. -/
theorem matchNumber_spec {s v rest : List Char} (h : matchNumber s = some (v, rest)) :
    IsNumber v ∧ s = v ++ rest := by
  unfold matchNumber at h
  by_cases hd : s.takeWhile isDigitChar = []
  · simp [hd] at h
  · simp only [hd, if_false] at h
    have hsplit := List.takeWhile_append_dropWhile isDigitChar s
    have hds : ∀ x ∈ s.takeWhile isDigitChar, isDigitChar x = true :=
      fun x hx => List.mem_takeWhile_imp hx
    cases hr : s.dropWhile isDigitChar with
    | nil =>
      simp only [hr, Option.some.injEq, Prod.mk.injEq] at h
      obtain ⟨hv, hrest⟩ := h
      subst hv
      subst hrest
      refine ⟨⟨_, hd, hds, Or.inl rfl⟩, ?_⟩
      rw [hr] at hsplit
      exact hsplit.symm
    | cons c r1 =>
      simp only [hr] at h
      rw [hr] at hsplit
      by_cases hc : c = '.' ∧ r1.takeWhile isDigitChar ≠ []
      · rw [if_pos hc] at h
        simp only [Option.some.injEq, Prod.mk.injEq] at h
        obtain ⟨hv, hrest⟩ := h
        subst hv
        subst hrest
        have hfs : ∀ x ∈ r1.takeWhile isDigitChar, isDigitChar x = true :=
          fun x hx => List.mem_takeWhile_imp hx
        refine ⟨⟨_, hd, hds, Or.inr ⟨_, hc.2, hfs, by rw [hc.1]⟩⟩, ?_⟩
        rw [List.append_assoc, List.cons_append, List.takeWhile_append_dropWhile]
        exact hsplit.symm
      · rw [if_neg hc] at h
        simp only [Option.some.injEq, Prod.mk.injEq] at h
        obtain ⟨hv, hrest⟩ := h
        subst hv
        subst hrest
        exact ⟨⟨_, hd, hds, Or.inl rfl⟩, hsplit.symm⟩

/-- A match of the pattern is a name, whitespace, `=`, whitespace and a
number, taken from the head of the input. -/
theorem matchAt_spec {s : List Char} {m : PatternMatch} (h : matchAt s = some m) :
    IsName m.name ∧ IsNumber m.value ∧
      ∃ txt, IsMatchText m.name m.value txt ∧ s = txt ++ m.rest := by
  cases s with
  | nil => simp [matchAt] at h
  | cons c cs =>
    unfold matchAt at h
    by_cases h1 : isIdentStart c = true
    · by_cases h2 : cs.takeWhile isWordChar = []
      · simp [h1, h2] at h
      · simp only [h1, h2, if_true, if_false] at h
        cases heq : (cs.dropWhile isWordChar).dropWhile isSpaceChar with
        | nil => simp [heq] at h
        | cons e r1 =>
          simp only [heq] at h
          by_cases h3 : e = '='
          · simp only [h3, if_true] at h
            cases hnum : matchNumber (r1.dropWhile isSpaceChar) with
            | none => simp [hnum] at h
            | some vr =>
              obtain ⟨v, rest⟩ := vr
              simp only [hnum, Option.some.injEq] at h
              subst h
              obtain ⟨hv, hrest⟩ := matchNumber_spec hnum
              refine ⟨⟨c, _, rfl, h1, h2, fun x hx => List.mem_takeWhile_imp hx⟩, hv,
                (c :: cs.takeWhile isWordChar)
                  ++ (cs.dropWhile isWordChar).takeWhile isSpaceChar
                  ++ '=' :: (r1.takeWhile isSpaceChar ++ v),
                ⟨_, _, fun x hx => List.mem_takeWhile_imp hx,
                  fun x hx => List.mem_takeWhile_imp hx, rfl⟩, ?_⟩
              have e1 := List.takeWhile_append_dropWhile isWordChar cs
              have e2 := List.takeWhile_append_dropWhile isSpaceChar (cs.dropWhile isWordChar)
              have e3 := List.takeWhile_append_dropWhile isSpaceChar r1
              rw [heq, h3] at e2
              rw [hrest] at e3
              simp only [List.cons_append, List.append_assoc]
              rw [e3, e2, e1]
          · simp [h3] at h
    · simp [h1] at h

theorem segmented_cons (c : Char) {s : List Char} {out : List String}
    (h : Segmented s out) : Segmented (c :: s) out := by
  cases h with
  | done gap => exact Segmented.done _
  | step gap name value txt rest out hn hv ht hs =>
    have := Segmented.step (c :: gap) name value txt rest out hn hv ht hs
    simpa using this

/-- Whatever the bound, the output of `scan` lists matches that follow one
another in the input. -/
theorem scan_segmented : ∀ (fuel : Nat) (s : List Char), Segmented s (scan fuel s)
  | 0, s => by
    rw [scan]
    exact Segmented.done s
  | _ + 1, [] => by
    rw [scan]
    exact Segmented.done []
  | fuel + 1, c :: cs => by
    cases hm : matchAt (c :: cs) with
    | some m =>
      simp only [scan, hm]
      obtain ⟨hn, hv, txt, ht, hs⟩ := matchAt_spec hm
      have := Segmented.step [] m.name m.value txt m.rest _ hn hv ht
        (scan_segmented fuel m.rest)
      rw [hs]
      simpa using this
    | none =>
      simp only [scan, hm]
      exact segmented_cons c (scan_segmented fuel cs)

theorem name_no_space {name : List Char} (h : IsName name) :
    2 ≤ name.length ∧ ∀ x ∈ name, isSpaceChar x = false := by
  obtain ⟨c, w, rfl, hc, hw, hall⟩ := h
  constructor
  · have : 0 < w.length := List.length_pos.mpr hw
    simp only [List.length_cons]
    omega
  · intro x hx
    rcases List.mem_cons.mp hx with rfl | hx
    · exact word_not_space (identStart_word hc)
    · exact word_not_space (hall x hx)

theorem number_no_space {value : List Char} (h : IsNumber value) :
    ∀ x ∈ value, isSpaceChar x = false := by
  obtain ⟨ds, -, hds, hv | ⟨fs, -, hfs, hv⟩⟩ := h
  · subst hv
    exact fun x hx => word_not_space (digit_word (hds x hx))
  · subst hv
    intro x hx
    rcases List.mem_append.mp hx with hx | hx
    · exact word_not_space (digit_word (hds x hx))
    · rcases List.mem_cons.mp hx with rfl | hx
      · decide
      · exact word_not_space (digit_word (hfs x hx))

/-- Every element of a segmented output is `name=value` without whitespace. -/
theorem segmented_elements {s : List Char} {out : List String} (h : Segmented s out) :
    ∀ e ∈ out, ∃ name value,
      e = String.mk name ++ "=" ++ String.mk value ∧ IsName name ∧ 2 ≤ name.length ∧
      IsNumber value ∧ ∀ x ∈ e.toList, isSpaceChar x = false := by
  induction h with
  | done gap => intro e he; simp at he
  | step gap name value txt rest out hn hv ht _ ih =>
    intro e he
    rcases List.mem_cons.mp he with rfl | he
    · refine ⟨name, value, rfl, hn, (name_no_space hn).1, hv, ?_⟩
      intro x hx
      have hx2 : x ∈ name ++ ('=' :: value) := by
        simpa [String.toList, String.data_append] using hx
      rcases List.mem_append.mp hx2 with hx3 | hx3
      · exact (name_no_space hn).2 x hx3
      · rcases List.mem_cons.mp hx3 with rfl | hx3
        · decide
        · exact number_no_space hv x hx3
    · exact ih e he

/-- A segmented output that is not empty comes from an input with a match. -/
theorem containsMatch_of_segmented {s : List Char} {e : String} {out : List String}
    (h : Segmented s (e :: out)) : ContainsMatch s := by
  cases h with
  | step gap name value txt rest out hn hv ht hs =>
    exact ⟨gap, name, value, txt, rest, hn, hv, ht, rfl⟩

theorem eq_mem_of_containsMatch {s : List Char} (h : ContainsMatch s) : '=' ∈ s := by
  obtain ⟨pre, name, value, txt, post, -, -, ⟨ws1, ws2, -, -, rfl⟩, rfl⟩ := h
  simp

/-! ## The coordinate pattern extractor: the claims, continued -/

/-- C14: for every input string, the elements of `matchPattern` are, in
order, taken from matches that follow one another in the input without
overlapping; each element is `name ++ "=" ++ value` with no whitespace, where
`name` has at least two characters, starts with a letter or underscore and
goes on with word characters, and `value` is one or more digits optionally
followed by a single `.` and one or more digits; the whitespace around `=` in
the input is not part of the element. -/
theorem matchPattern_elements (c : Circle) (input : String) :
    Segmented input.toList (c.matchPattern input) ∧
    ∀ e ∈ c.matchPattern input, ∃ name value,
      e = String.mk name ++ "=" ++ String.mk value ∧ IsName name ∧ 2 ≤ name.length ∧
      IsNumber value ∧ ∀ x ∈ e.toList, isSpaceChar x = false :=
  ⟨scan_segmented _ _, segmented_elements (scan_segmented _ _)⟩

/-- C14 at the input `"ab = 12.5 _x1=7"`: the two elements `"ab=12.5"` and
`"_x1=7"`, in that order. -/
theorem matchPattern_elements_witness :
    Segmented "ab = 12.5 _x1=7".toList ["ab=12.5", "_x1=7"] :=
  (matchPattern_elements ⟨⟨0, 0⟩, 1⟩ "ab = 12.5 _x1=7").1

/-- C15: for every input string that contains no match of
`<identifier> = <number>`, in particular the empty string and every string
without an `=` character, `matchPattern` returns the empty sequence. -/
theorem matchPattern_no_match (c : Circle) (input : String) :
    (¬ ContainsMatch input.toList → c.matchPattern input = []) ∧
    ('=' ∉ input.toList → c.matchPattern input = []) ∧
    c.matchPattern "" = [] := by
  have h1 : ¬ ContainsMatch input.toList → c.matchPattern input = [] := by
    intro hn
    cases hout : c.matchPattern input with
    | nil => rfl
    | cons e out =>
      have hs : Segmented input.toList (c.matchPattern input) := scan_segmented _ _
      rw [hout] at hs
      exact absurd (containsMatch_of_segmented hs) hn
  exact ⟨h1, fun hne => h1 (fun hc => hne (eq_mem_of_containsMatch hc)), rfl⟩

/-- C15 at the input `"hello world 42"`, which has no `=`. -/
theorem matchPattern_no_match_witness :
    Circle.matchPattern ⟨⟨0, 0⟩, 1⟩ "hello world 42" = [] :=
  (matchPattern_no_match ⟨⟨0, 0⟩, 1⟩ "hello world 42").2.1 (by decide)

namespace MathUtils

/-- With `k < 0 ≤ n` and `n - k ≤ 20` the code divides `n!` by `(n-k)!`. -/
theorem binomial_negative_k_value (n k : Int) (hk : k < 0) (hn : 0 ≤ n) (h20 : n - k ≤ 20) :
    binomial n k
      = some (((n.toNat.factorial / (n - k).toNat.factorial : Nat) : Int)) := by
  unfold binomial
  rw [if_neg (by omega), if_neg (by omega)]
  have hw : wrap32 (n - k) = n - k := wrap32_of_inInt32 (by unfold inInt32; omega)
  have hfk : factorial k = 1 := factorial_of_le_one (by omega)
  have hfn : factorial n = (n.toNat.factorial : Int) := factorial_eq_of_le hn (by omega)
  have hfs : factorial (n - k) = ((n - k).toNat.factorial : Int) :=
    factorial_eq_of_le (by omega) h20
  have hM : (n - k).toNat ≤ 20 := by omega
  simp only [hw, hfk, hfn, hfs, one_mul, wrap64_of_inInt64 (nat_factorial_inInt64 hM)]
  have hpos : ¬ (((n - k).toNat.factorial : Int) = 0) := by
    have := Nat.factorial_pos (n - k).toNat
    omega
  rw [if_neg hpos, ← Int.ofNat_tdiv]
  have hle : n.toNat.factorial / (n - k).toNat.factorial ≤ n.toNat.factorial :=
    Nat.div_le_self _ _
  have hN : n.toNat ≤ 20 := by omega
  have hlt := nat_factorial_lt hN
  have hin : inInt64 (((n.toNat.factorial / (n - k).toNat.factorial : Nat) : Int)) := by
    unfold inInt64
    constructor
    · have : (0 : Int) ≤ ((n.toNat.factorial / (n - k).toNat.factorial : Nat) : Int) :=
        Int.natCast_nonneg _
      omega
    · have : ((n.toNat.factorial / (n - k).toNat.factorial : Nat) : Int)
          ≤ (n.toNat.factorial : Int) := by exact_mod_cast hle
      omega
  rw [wrap64_of_inInt64 hin]

/-- C19 (the code on the inputs of the claim): for `k < 0 ≤ n` with
`n - k ≤ 20`, `binomial(n, k)` returns `0` except at `n = 0`, `k = -1`, where
`0! / ((-1)! * 1!)` is computed as `1 / (1 * 1)` and the call returns `1`. -/
theorem binomial_negative_k :
    binomial 0 (-1) = some 1 ∧
    ∀ n k : Int, k < 0 → 0 ≤ n → n - k ≤ 20 → (n ≠ 0 ∨ k ≠ -1) → binomial n k = some 0 := by
  constructor
  · rw [binomial_negative_k_value 0 (-1) (by norm_num) (by norm_num) (by norm_num)]
    rfl
  · intro n k hk hn h20 hne
    rw [binomial_negative_k_value n k hk hn h20]
    have hlt : n.toNat.factorial < (n - k).toNat.factorial := by
      by_cases h0 : n = 0
      · subst h0
        have hk2 : 1 < (0 - k).toNat := by omega
        have := Nat.one_lt_factorial.mpr hk2
        simpa using this
      · exact (Nat.factorial_lt (by omega)).mpr (by omega)
    rw [Nat.div_eq_of_lt hlt]
    rfl

/-- C19 at `n = 5`, `k = -2`: `binomial(5, -2) = 0`. -/
theorem binomial_negative_k_witness : binomial 5 (-2) = some 0 :=
  binomial_negative_k.2 5 (-2) (by norm_num) (by norm_num) (by norm_num) (by norm_num)

end MathUtils

end Showcase
